import Mathlib

/-!
Shallow embedding of the eduvocs in-memory document index and faceted-search
engine (source: src/lib/config.js of dini-ag-kim/eduvocs).

The store object `db`, its derived view `paginatedResults`, and the exported
operations `updatePagination`, `resetFilters`, `fillResults`, `search`,
`sort`, `handleFilterSelect`, `updateResults`, `toggleSelected` and
`resetSelected` are translated into pure Lean functions over an explicit
state record.  JavaScript numbers appearing in the pagination arithmetic are
modelled as `Int`; record field access `a[key]` is modelled by a total
lookup returning a JavaScript value (`JsVal`), with `null` standing for both
JS `null` and `undefined` (the source only tests `== null`, which identifies
the two).

The flexsearch `Document` index is an external library dependency whose
behaviour the engine relies on; the parts the claims need (full-tokenizer
substring matching, per-field hit groups, enriched results, flat OR tag
filtering) are modelled from the specification, and are marked as such in
their doc comments.  `Array.prototype.sort` is modelled as a stable merge
sort (`List.mergeSort`): ECMAScript mandates a stable comparison sort, and
leaves the result implementation-defined when the comparator is
inconsistent, which the comparator of `sort` is (a `null` value compares
equal to everything).
-/

namespace Eduvocs

/-- JavaScript values that can occur in a stored document field: `null`
(also standing for `undefined`), numbers (modelled as `Int`), strings, and
arrays of strings. -/
inductive JsVal where
  | null : JsVal
  | num : Int → JsVal
  | str : String → JsVal
  | arr : List String → JsVal
deriving DecidableEq, Repr

/-- Modelled from the spec: the shape of a normalized document record as it
sits in the index store.  A record has a stable unique string `id`, text
fields, facet attribute fields (each zero or more string values), the `type`
set of category URIs, the `tag` set fed to the flexsearch tag index, and the
remaining record fields (`name`, `issued`, ...), which the engine only ever
reads through dynamic key access (in `sort`), kept as a key-value list. -/
structure Doc where
  id : String
  title : String
  about : List String
  educationalLevel : List String
  P126 : List String
  type : List String
  tag : List String
  extra : List (String × JsVal)
deriving DecidableEq, Repr

/-- Dynamic field access `doc[key]`: the statically known fields are wrapped
into `JsVal`, every other key is looked up in `extra`; a missing key yields
`JsVal.null` (JS `undefined`, which the source only tests via `== null`). -/
def getVal (d : Doc) (key : String) : JsVal :=
  if key = "id" then JsVal.str d.id
  else if key = "title" then JsVal.str d.title
  else if key = "about" then JsVal.arr d.about
  else if key = "educationalLevel" then JsVal.arr d.educationalLevel
  else if key = "P126" then JsVal.arr d.P126
  else if key = "type" then JsVal.arr d.type
  else if key = "tag" then JsVal.arr d.tag
  else (d.extra.lookup key).getD JsVal.null

/-- The fixed vocabulary-membership marker URI used by `fillResults`. -/
def marker : String := "http://www.wikidata.org/entity/Q1469824"

/-- Configured facet filter keys (`config.filterKeys`). -/
def filterKeys : List String := ["about", "educationalLevel", "P126"]

/-- The field list passed as the `index` option of the `index.search` call
inside `search`. -/
def indexFields : List String := ["id", "title", "about", "P126"]

/-- The mutable store state (the `db` writable), with the flexsearch index
represented by its document store `store` (the insertion-ordered record
list behind `index.store`). -/
structure DB where
  resultsPerPage : Int
  activePage : Int
  query : String
  results : List Doc
  filtersCatalog : List (String × List String)
  store : List Doc
  sortKey : String
  sortOrder : String
  initialized : Bool
  selectedFilters : List (String × List String)
deriving DecidableEq, Repr

/-- JavaScript `Array.prototype.slice(s, e)` on a list, with the ECMAScript
clamping of negative and out-of-range endpoints. -/
def jsSlice {α : Type} (l : List α) (s e : Int) : List α :=
  let len : Int := l.length
  let rs : Int := if s < 0 then max (len + s) 0 else min s len
  let re : Int := if e < 0 then max (len + e) 0 else min e len
  (l.drop rs.toNat).take (re - rs).toNat

/-- The derived store `paginatedResults`: the slice of `results` starting at
`activePage * resultsPerPage` of length `resultsPerPage`. -/
def paginatedResults (db : DB) : List Doc :=
  let startIndex := db.activePage * db.resultsPerPage
  let endIndex := startIndex + db.resultsPerPage
  jsSlice db.results startIndex endIndex

/-- The exported `updatePagination(direction)`: moves `activePage` by
`direction`. -/
def updatePagination (direction : Int) (db : DB) : DB :=
  { db with activePage := db.activePage + direction }

/-- `initFilters()`: one empty selection list per configured filter key. -/
def initFilters : List (String × List String) :=
  filterKeys.map (fun e => (e, []))

/-- The exported `updateResults(results)`: replaces `results` and resets
`activePage` to 0, leaving the rest of the state unchanged. -/
def updateResults (db : DB) (results : List Doc) : DB :=
  { db with results := results, activePage := 0 }

/-- The exported `fillResults()`: every store record whose `type` list
contains the marker URI, in store (insertion) order. -/
def fillResults (db : DB) : DB :=
  let results := db.store.filter (fun e => e.type.contains marker)
  updateResults db results

/-- `Object.values(selectedFilters).flat()`: the selected facet values of
all keys, flattened into one list in key order. -/
def tagsOf (sel : List (String × List String)) : List String :=
  (sel.map Prod.snd).flatten

/-- Substring test on character lists: true when the first list occurs as a
contiguous run inside the second. -/
def listInfix (needle : List Char) : List Char → Bool
  | [] => needle.isEmpty
  | c :: t => needle.isPrefixOf (c :: t) || listInfix needle t

/-- JavaScript `toLowerCase()`, modelled as per-character case folding. -/
def jsToLower (s : String) : String :=
  String.mk (s.toList.map Char.toLower)

/-- Modelled from the spec: the flexsearch tokenizer with mode "full" and
case-folding normalization supports partial-word matches, so a non-empty
term hits a text exactly when the case-folded term occurs as a substring of
the case-folded text; the empty term matches everything (an empty-term call
with a tag constraint returns the tag matches). -/
def textMatch (term text : String) : Bool :=
  listInfix (jsToLower term).toList (jsToLower text).toList

/-- Text content of an indexed field of a document, as the list of strings
the tokenizer sees for that field. -/
def fieldStrings (d : Doc) (field : String) : List String :=
  if field = "id" then [d.id]
  else if field = "title" then [d.title]
  else if field = "about" then d.about
  else if field = "P126" then d.P126
  else []

/-- Modelled from the spec: the tag constraint of the index query has flat
OR semantics — with no selected values there is no constraint, otherwise a
document passes when its `tag` list contains any of the selected values. -/
def tagOk (tags : List String) (d : Doc) : Bool :=
  tags.isEmpty || tags.any (fun t => d.tag.contains t)

/-- An enriched hit as returned by `index.search(..., { enrich: true })`:
the document id together with the stored record. -/
structure Item where
  id : String
  doc : Doc
deriving DecidableEq, Repr

/-- Modelled from the spec: the per-field hit group of the flexsearch query
for one searched field — the store records whose field content matches the
term and which pass the tag constraint, as enriched items. -/
def fieldHits (store : List Doc) (term : String) (tags : List String)
    (field : String) : List Item :=
  (store.filter (fun d => (fieldStrings d field).any (textMatch term)
      && tagOk tags d)).map (fun d => Item.mk d.id d)

/-- Modelled from the spec: the grouped result of
`index.search(searchTerm, { index: indexFields, enrich: true, tag: tags })`,
one hit group per searched field, in field priority order. -/
def groupedResults (store : List Doc) (term : String) (tags : List String) :
    List (List Item) :=
  indexFields.map (fieldHits store term tags)

/-- The flattening `groupedResults.map((e) => e.result).flat()` of all
per-field hit groups into a single ordered list. -/
def searchHits (db : DB) : List Item :=
  (groupedResults db.store db.query (tagsOf db.selectedFilters)).flatten

/-- One `Map.prototype.set` step on an insertion-ordered key-value list: an
existing key keeps its position and gets the new value, a new key is
appended. -/
def mapInsert (m : List (String × Item)) (p : String × Item) :
    List (String × Item) :=
  match m with
  | [] => [p]
  | q :: t => if q.1 = p.1 then (q.1, p.2) :: t else q :: mapInsert t p

/-- The JavaScript `new Map(pairs)` construction: inserting every pair in
order into an initially empty map. -/
def buildMap (l : List (String × Item)) : List (String × Item) :=
  l.foldl mapInsert []

/-- The deduplication step of `search`:
`Array.from(new Map(list.map((item) => [item.id, item])).values())`. -/
def jsDedup (items : List Item) : List Item :=
  (buildMap (items.map (fun item => (item.id, item)))).map Prod.snd

/-- The deduplicated enriched result set computed inside `search` on its
non-fast path. -/
def resultSet (db : DB) : List Item :=
  jsDedup (searchHits db)

/-- The exported `search(event)` (the event only carries `preventDefault`):
empty term with no selected facet values falls to `fillResults`; otherwise
the index is queried, hit groups are flattened and deduplicated by id, the
surviving items are resolved to their records, and the result list is
stored.  The second conjunct of the final JS guard
(`Object.values(...).flat()`) is an array and hence always truthy, so the
guard reduces to the emptiness test. -/
def search (db : DB) : DB :=
  let searchTerm := db.query
  let tags := tagsOf db.selectedFilters
  if searchTerm = "" ∧ tags = [] then
    fillResults db
  else
    let results := (resultSet db).map Item.doc
    if results = [] then updateResults db [] else updateResults db results

/-- The exported `resetFilters()`: clears query, sort and selections, then
refills the results. -/
def resetFilters (db : DB) : DB :=
  fillResults { db with
    query := "",
    sortKey := "",
    sortOrder := "asc",
    selectedFilters := initFilters }

/-- The selection-list update performed by `handleFilterSelect(key, val)`:
a selected value is removed (every occurrence), an unselected one is
appended.  The spread `{...selectedFilters, [key]: ...}` keeps the position
of an existing key, which is modelled by an in-place map over the entry
list. -/
def selectFilterValue (key val : String)
    (sel : List (String × List String)) : List (String × List String) :=
  let cur := (sel.lookup key).getD []
  if cur.contains val then
    sel.map (fun p => if p.1 = key then (p.1, p.2.filter (fun e => e != val)) else p)
  else
    sel.map (fun p => if p.1 = key then (p.1, p.2 ++ [val]) else p)

/-- The exported `handleFilterSelect(key, val)`: updates the selection map,
then triggers `search`. -/
def handleFilterSelect (key val : String) (db : DB) : DB :=
  search { db with selectedFilters := selectFilterValue key val db.selectedFilters }

/-- Three-way comparison of JS numbers, the sign of `valA - valB`. -/
def cmpNum (x y : Int) : Ordering :=
  if x < y then Ordering.lt else if y < x then Ordering.gt else Ordering.eq

/-- Modelled from the spec: `String(a).localeCompare(String(b))` as a
three-way comparison; the locale-aware collation itself is modelled as the
lexicographic string order. -/
def cmpStr (x y : String) : Ordering :=
  if x < y then Ordering.lt else if y < x then Ordering.gt else Ordering.eq

/-- JavaScript `String(v)` coercion of a field value: arrays join their
elements with commas. -/
def jsToString (v : JsVal) : String :=
  match v with
  | JsVal.null => "null"
  | JsVal.num n => toString n
  | JsVal.str s => s
  | JsVal.arr l => String.intercalate "," l

/-- Whether a field value is a JS number (`typeof v === "number"`). -/
def isNum (v : JsVal) : Bool :=
  match v with
  | JsVal.num _ => true
  | _ => false

/-- The comparator of `sort` as a three-way comparison: a `null` or missing
value on either side short-circuits to equal; two numbers compare
numerically; every other pair compares by string coercion; `order = "desc"`
swaps the operands. -/
def jsCompare (key order : String) (a b : Doc) : Ordering :=
  let valA := getVal a key
  let valB := getVal b key
  if valA = JsVal.null ∨ valB = JsVal.null then Ordering.eq
  else
    match valA, valB with
    | JsVal.num x, JsVal.num y =>
        if order = "desc" then cmpNum y x else cmpNum x y
    | va, vb =>
        if order = "desc" then cmpStr (jsToString vb) (jsToString va)
        else cmpStr (jsToString va) (jsToString vb)

/-- The boolean "a may stay before b" relation a stable sort derives from a
JS comparator: true unless the comparator is positive. -/
def jsLe (key order : String) (a b : Doc) : Bool :=
  match jsCompare key order a b with
  | Ordering.gt => false
  | _ => true

/-- Fuel-indexed merge of two lists, taking from the left while the switch
allows it.  With fuel at least the sum of the lengths this is exactly
`List.merge`; the fuel only makes the recursion structural so that concrete
runs reduce inside the kernel. -/
def mergeFuel {α : Type} (le : α → α → Bool) :
    Nat → List α → List α → List α
  | 0, xs, ys => xs ++ ys
  | _ + 1, [], ys => ys
  | _ + 1, x :: xs, [] => x :: xs
  | fuel + 1, x :: xs, y :: ys =>
    if le x y then x :: mergeFuel le fuel xs (y :: ys)
    else y :: mergeFuel le fuel (x :: xs) ys

/-- Fuel-indexed stable merge sort, splitting the list in two contiguous
halves like `List.mergeSort`; with fuel at least the length it is exactly
`List.mergeSort`. -/
def msortFuel {α : Type} (le : α → α → Bool) : Nat → List α → List α
  | 0, l => l
  | _ + 1, [] => []
  | _ + 1, [a] => [a]
  | fuel + 1, a :: b :: xs =>
    let n := (a :: b :: xs).length
    mergeFuel le n
      (msortFuel le fuel ((a :: b :: xs).take ((n + 1) / 2)))
      (msortFuel le fuel ((a :: b :: xs).drop ((n + 1) / 2)))

/-- Stable merge sort of a document list (equal to `List.mergeSort`, in a
kernel-computable presentation). -/
def jsSort (le : Doc → Doc → Bool) (l : List Doc) : List Doc :=
  msortFuel le l.length l

/-- The exported `sort(key, order)`: lower-cases the order flag, stably
sorts a copy of the current results by the comparator, records the sort
choice and stores the sorted list (resetting pagination).
`Array.prototype.sort` is required by ECMAScript to be a stable comparison
sort, modelled here as stable merge sort; for the inconsistent comparator
arising from the `null` short-circuit ECMAScript leaves the resulting
order implementation-defined. -/
def sortOp (key order : String) (db : DB) : DB :=
  let order := jsToLower order
  let results := jsSort (fun a b => jsLe key order a b) db.results
  updateResults { db with sortKey := key, sortOrder := order } results

/-- The selection state touched by `toggleSelected` and `resetSelected`:
the dynamic store fields `db[dbKey]` as a total map from key to list, the
`localStorage` content as a total map from storage key to optional stored
string, and the ordered log of `localStorage.setItem` calls performed. -/
structure SelState where
  sets : String → List String
  storage : String → Option String
  writes : List (String × String)

/-- One `localStorage.setItem(k, v)` call: overwrites the entry and appends
to the write log. -/
def setItem (s : SelState) (k v : String) : SelState :=
  { s with
    storage := fun k2 => if k2 = k then some v else s.storage k2,
    writes := s.writes ++ [(k, v)] }

/-- JSON serialization of a list of ids as a JSON array of strings (the ids
are opaque and contain no characters needing escaping). -/
def jsonArray (l : List String) : String :=
  "[" ++ String.intercalate "," (l.map (fun x => "\"" ++ x ++ "\"")) ++ "]"

/-- JSON serialization of the single-property object `{key: arr}` that
`toggleSelected` and `resetSelected` pass to `JSON.stringify`. -/
def jsonObj1 (key arrStr : String) : String :=
  "\x7b\"" ++ key ++ "\":" ++ arrStr ++ "\x7d"

/-- The storage key `eduvocs:dbKey`. -/
def storageKey (dbKey : String) : String := "eduvocs:" ++ dbKey

/-- The exported `toggleSelected(dbKey, val)`: removes a present value
(every occurrence), appends an absent one, and persists the serialized
single-property object under the namespaced storage key. -/
def toggleSelected (dbKey val : String) (s : SelState) : SelState :=
  let cur := s.sets dbKey
  if cur.contains val then
    let updated := cur.filter (fun v => v != val)
    let s1 := setItem s (storageKey dbKey) (jsonObj1 dbKey (jsonArray updated))
    { s1 with sets := fun k2 => if k2 = dbKey then updated else s.sets k2 }
  else
    let updated := cur ++ [val]
    let s1 := setItem s (storageKey dbKey) (jsonObj1 dbKey (jsonArray updated))
    { s1 with sets := fun k2 => if k2 = dbKey then updated else s.sets k2 }

/-- The exported `resetSelected(dbKey)`: clears the set and persists the
serialized single-property object holding the empty array. -/
def resetSelected (dbKey : String) (s : SelState) : SelState :=
  let s1 := setItem s (storageKey dbKey) (jsonObj1 dbKey (jsonArray []))
  { s1 with sets := fun k2 => if k2 = dbKey then [] else s.sets k2 }

/-! Concrete records used by witnesses and counterexamples. -/

/-- A vocabulary record (the `Bildung` document of the spec scenario). -/
def doc1 : Doc := ⟨"1", "Bildung", [], [], [], [marker], [], []⟩

/-- A second vocabulary record (the `Schule` document of the spec
scenario), carrying a facet tag. -/
def doc2 : Doc := ⟨"2", "Schule", ["X"], [], [], [marker], ["X"], []⟩

/-- A record that is not a vocabulary (its `type` misses the marker). -/
def doc3 : Doc := ⟨"3", "Sonstiges", [], [], [], [], [], []⟩

/-- A baseline store state over the three example records, with empty query
and empty selections. -/
def db0 : DB :=
  { resultsPerPage := 10
    activePage := 1
    query := ""
    results := []
    filtersCatalog := []
    store := [doc1, doc2, doc3]
    sortKey := ""
    sortOrder := "asc"
    initialized := true
    selectedFilters := initFilters }

/-- An initial selection state with empty sets, empty storage and an empty
write log. -/
def selState0 : SelState := ⟨fun _ => [], fun _ => none, []⟩

/-- A state on page 5 of size 2 with a single result, out of range. -/
def dbPage5 : DB :=
  { db0 with results := [doc1], activePage := 5, resultsPerPage := 2 }

/-- A state selecting a facet value carried by no record. -/
def dbNoMatch : DB :=
  { db0 with selectedFilters :=
      [("about", ["NOPE"]), ("educationalLevel", []), ("P126", [])] }

/-- A selection of the values X and Y under the `about` key. -/
def dbSelAbout : DB :=
  { db0 with selectedFilters :=
      [("about", ["X", "Y"]), ("educationalLevel", []), ("P126", [])] }

/-- The same two values selected under different keys. -/
def selSplit : List (String × List String) :=
  [("about", []), ("educationalLevel", ["Y"]), ("P126", ["X"])]

/-- A store with one record matched by the term in three indexed fields. -/
def docTriple : Doc := ⟨"foo", "foo", ["foo"], [], [], [marker], [], []⟩

/-- A state querying `foo` against that store. -/
def dbTriple : DB := { db0 with store := [docTriple], query := "foo" }

/-- A record whose `v` attribute is the number 2. -/
def docNum2 : Doc := ⟨"B", "B", [], [], [], [], [], [("v", JsVal.num 2)]⟩

/-- A record with no `v` attribute (dynamic access yields null). -/
def docNull : Doc := ⟨"A", "A", [], [], [], [], [], []⟩

/-- A record whose `v` attribute is the number 1. -/
def docNum1 : Doc := ⟨"C", "C", [], [], [], [], [], [("v", JsVal.num 1)]⟩

/-- A results list holding the number 2, a null, and the number 1 under the
sort key `v`, in that order. -/
def dbSort : DB := { db0 with results := [docNum2, docNull, docNum1] }

/-- A second record whose `v` attribute is also the number 2. -/
def docNum2x : Doc := ⟨"D", "D", [], [], [], [], [], [("v", JsVal.num 2)]⟩

/-- An all-numeric results list with two records of equal value 2. -/
def dbStab : DB := { db0 with results := [docNum2, docNum1, docNum2x] }

end Eduvocs

namespace Eduvocs

/-! ## C9: updateResults frame and page reset -/

theorem search_activePage (db : DB) : (search db).activePage = 0 := by
  simp only [search, fillResults, updateResults]
  split
  · rfl
  · split <;> rfl

/-- C9: `updateResults(results)` replaces the results list and sets
`activePage` to 0 while leaving every other state field unchanged, and each
operation ending in `updateResults` — `search`, `fillResults`, `sort`,
`resetFilters` and `handleFilterSelect` — leaves the state on page 0. -/
theorem updateResults_frame_and_page_reset (db : DB) (results : List Doc) :
    (updateResults db results).results = results ∧
    (updateResults db results).activePage = 0 ∧
    (updateResults db results).resultsPerPage = db.resultsPerPage ∧
    (updateResults db results).query = db.query ∧
    (updateResults db results).filtersCatalog = db.filtersCatalog ∧
    (updateResults db results).store = db.store ∧
    (updateResults db results).sortKey = db.sortKey ∧
    (updateResults db results).sortOrder = db.sortOrder ∧
    (updateResults db results).initialized = db.initialized ∧
    (updateResults db results).selectedFilters = db.selectedFilters ∧
    (∀ key order, (sortOp key order db).activePage = 0) ∧
    (search db).activePage = 0 ∧
    (fillResults db).activePage = 0 ∧
    (resetFilters db).activePage = 0 ∧
    (∀ key val, (handleFilterSelect key val db).activePage = 0) := by
  refine ⟨rfl, rfl, rfl, rfl, rfl, rfl, rfl, rfl, rfl, rfl,
    fun key order => rfl, search_activePage db, rfl, rfl,
    fun key val => search_activePage _⟩

/-! ## C5: pagination bounds -/

/-- C5: the pagination window is total, and an out-of-range page — any page
index whose start `pageIndex * pageSize` is at or past the end of the
results list — yields the empty slice, for every non-negative page size. -/
theorem paginatedResults_out_of_range (db : DB)
    (hsize : 0 ≤ db.resultsPerPage)
    (hout : (db.results.length : Int) ≤ db.activePage * db.resultsPerPage) :
    paginatedResults db = [] := by
  unfold paginatedResults jsSlice
  dsimp only
  have hlen : (0 : Int) ≤ (db.results.length : Int) := Int.ofNat_nonneg _
  have hs : ¬ db.activePage * db.resultsPerPage < 0 := by omega
  have he : ¬ db.activePage * db.resultsPerPage + db.resultsPerPage < 0 := by
    omega
  rw [if_neg hs, if_neg he]
  have h1 : min (db.activePage * db.resultsPerPage)
      (db.results.length : Int) = (db.results.length : Int) :=
    min_eq_right hout
  have h2 : min (db.activePage * db.resultsPerPage + db.resultsPerPage)
      (db.results.length : Int) = (db.results.length : Int) :=
    min_eq_right (by omega)
  rw [h1, h2]
  simp

/-- Witness for C5 at a concrete state: one result, page 5 of size 2. -/
theorem paginatedResults_out_of_range_witness :
    (0 : Int) ≤ dbPage5.resultsPerPage ∧
    ((dbPage5.results.length : Int) ≤
      dbPage5.activePage * dbPage5.resultsPerPage) ∧
    paginatedResults dbPage5 = [] :=
  ⟨by decide, by decide,
    paginatedResults_out_of_range _ (by decide) (by decide)⟩

/-! ## C7: toggle is remove-if-present / append-if-absent, and toggling
twice restores the membership of the set -/

theorem toggle_sets_of_mem {s : SelState} {k v : String}
    (hv : v ∈ s.sets k) :
    (toggleSelected k v s).sets k = (s.sets k).filter (fun x => x != v) := by
  simp [toggleSelected, setItem, hv]

theorem toggle_sets_of_not_mem {s : SelState} {k v : String}
    (hv : v ∉ s.sets k) :
    (toggleSelected k v s).sets k = s.sets k ++ [v] := by
  simp [toggleSelected, setItem, hv]

theorem toggle_storage_self (s : SelState) (k v : String) :
    (toggleSelected k v s).storage (storageKey k) =
      some (jsonObj1 k (jsonArray ((toggleSelected k v s).sets k))) := by
  by_cases hv : v ∈ s.sets k <;> simp [toggleSelected, setItem, hv]

theorem toggle_writes_self (s : SelState) (k v : String) :
    (toggleSelected k v s).writes =
      s.writes ++ [(storageKey k, jsonObj1 k
        (jsonArray ((toggleSelected k v s).sets k)))] := by
  by_cases hv : v ∈ s.sets k <;> simp [toggleSelected, setItem, hv]

/-- C7: one toggle removes a present value and appends an absent one; two
toggles of the same pair restore the membership of the in-memory set for
that key, and the persisted entry for the key then holds the serialization
of the restored set. -/
theorem toggleSelected_toggle_twice (s : SelState) (k v : String) :
    (v ∈ s.sets k →
      (toggleSelected k v s).sets k = (s.sets k).filter (fun x => x != v)) ∧
    (v ∉ s.sets k → (toggleSelected k v s).sets k = s.sets k ++ [v]) ∧
    (∀ x, x ∈ (toggleSelected k v (toggleSelected k v s)).sets k ↔
      x ∈ s.sets k) ∧
    (toggleSelected k v (toggleSelected k v s)).storage (storageKey k) =
      some (jsonObj1 k (jsonArray
        ((toggleSelected k v (toggleSelected k v s)).sets k))) := by
  refine ⟨fun hv => toggle_sets_of_mem hv, fun hv => toggle_sets_of_not_mem hv,
    ?_, toggle_storage_self _ k v⟩
  intro x
  by_cases hv : v ∈ s.sets k
  · have h1 := toggle_sets_of_mem hv
    have hnotin : v ∉ (toggleSelected k v s).sets k := by
      rw [h1]; simp
    rw [toggle_sets_of_not_mem hnotin, h1]
    simp only [List.mem_append, List.mem_filter, List.mem_singleton,
      bne_iff_ne, ne_eq, decide_eq_true_eq]
    constructor
    · rintro (⟨hx, -⟩ | rfl)
      · exact hx
      · exact hv
    · intro hx
      by_cases hxv : x = v
      · exact Or.inr hxv
      · exact Or.inl ⟨hx, hxv⟩
  · have h1 := toggle_sets_of_not_mem hv
    have hin : v ∈ (toggleSelected k v s).sets k := by
      rw [h1]; simp
    have hfilter : (s.sets k).filter (fun x => x != v) = s.sets k :=
      List.filter_eq_self.mpr (fun a ha => by
        simp only [bne_iff_ne, ne_eq, decide_eq_true_eq]
        rintro rfl
        exact hv ha)
    rw [toggle_sets_of_mem hin, h1]
    simp only [List.filter_append, hfilter]
    simp

/-- Witness for C7: toggling `42` twice on the `selectedVocabs` key of the
empty selection state restores the empty set and persists it. -/
theorem toggleSelected_toggle_twice_witness :
    ("42" ∉ selState0.sets "selectedVocabs" ∧
      (toggleSelected "selectedVocabs" "42" selState0).sets "selectedVocabs" =
        selState0.sets "selectedVocabs" ++ ["42"]) ∧
    (∀ x, x ∈ (toggleSelected "selectedVocabs" "42"
        (toggleSelected "selectedVocabs" "42" selState0)).sets
          "selectedVocabs" ↔ x ∈ selState0.sets "selectedVocabs") ∧
    (toggleSelected "selectedVocabs" "42"
        (toggleSelected "selectedVocabs" "42" selState0)).storage
        (storageKey "selectedVocabs") =
      some (jsonObj1 "selectedVocabs" (jsonArray
        ((toggleSelected "selectedVocabs" "42"
          (toggleSelected "selectedVocabs" "42" selState0)).sets
            "selectedVocabs"))) :=
  ⟨⟨by decide,
      (toggleSelected_toggle_twice selState0 "selectedVocabs" "42").2.1
        (by decide)⟩,
    (toggleSelected_toggle_twice selState0 "selectedVocabs" "42").2.2.1,
    (toggleSelected_toggle_twice selState0 "selectedVocabs" "42").2.2.2⟩

/-! ## C8: persisted layout of a selection-state mutation -/

/-- Counterexample for C8: the first toggle on the empty state writes, under
the namespaced key, the serialization of the single-property object
`\x7b"selectedVocabs":["42"]\x7d` — not the bare JSON array `["42"]` that
the claim demands. -/
theorem toggleSelected_persists_object_not_array :
    (toggleSelected "selectedVocabs" "42" selState0).storage
        (storageKey "selectedVocabs") =
      some (jsonObj1 "selectedVocabs" (jsonArray ["42"])) ∧
    (toggleSelected "selectedVocabs" "42" selState0).sets "selectedVocabs" =
      ["42"] ∧
    jsonObj1 "selectedVocabs" (jsonArray ["42"]) ≠ jsonArray ["42"] := by
  refine ⟨by decide, by decide, by decide⟩

/-- C8 (amended): every selection-state mutation performs exactly one
durable write, under the key `eduvocs:` + state key, and the written value
is the JSON object with the state key as its single property whose value is
the entire updated set serialized as a JSON array. -/
theorem selection_mutation_persists_one_entry (s : SelState) (k v : String) :
    (toggleSelected k v s).writes =
      s.writes ++ [(storageKey k, jsonObj1 k
        (jsonArray ((toggleSelected k v s).sets k)))] ∧
    (toggleSelected k v s).storage (storageKey k) =
      some (jsonObj1 k (jsonArray ((toggleSelected k v s).sets k))) ∧
    (resetSelected k s).writes =
      s.writes ++ [(storageKey k, jsonObj1 k
        (jsonArray ((resetSelected k s).sets k)))] ∧
    (resetSelected k s).storage (storageKey k) =
      some (jsonObj1 k (jsonArray ((resetSelected k s).sets k))) := by
  refine ⟨toggle_writes_self s k v, toggle_storage_self s k v, ?_, ?_⟩ <;>
    simp [resetSelected, setItem]

/-! ## C1: empty term and no selected facet values fall to the unfiltered
fetch -/

/-- C1: with an empty free-text term and no selected facet values, `search`
returns exactly the store records whose `type` list contains the marker
URI, in store (insertion) order, and coincides with `fillResults`. -/
theorem search_empty_unfiltered (db : DB)
    (hq : db.query = "") (hsel : tagsOf db.selectedFilters = []) :
    (search db).results =
      db.store.filter (fun d => d.type.contains marker) ∧
    search db = fillResults db := by
  have h : search db = fillResults db := by
    simp [search, hq, hsel]
  exact ⟨by rw [h]; rfl, h⟩

/-- Witness for C1 on the spec scenario store: both vocabulary records come
back in insertion order, the non-vocabulary record does not. -/
theorem search_empty_unfiltered_witness :
    (db0.query = "" ∧ tagsOf db0.selectedFilters = []) ∧
    (search db0).results = [doc1, doc2] ∧
    search db0 = fillResults db0 := by
  refine ⟨⟨rfl, by decide⟩, ?_,
    (search_empty_unfiltered db0 rfl (by decide)).2⟩
  rw [(search_empty_unfiltered db0 rfl (by decide)).1]
  decide

/-! ## C3: an empty result with selected facet values stays empty -/

/-- C3: when at least one facet value is selected and the merged,
deduplicated, resolved result list is empty, `search` stores the explicit
empty list (no fallback to the unfiltered set, and no error: the operation
is total). -/
theorem search_no_match_stays_empty (db : DB)
    (hsel : tagsOf db.selectedFilters ≠ [])
    (hempty : (resultSet db).map Item.doc = []) :
    (search db).results = [] := by
  have hcond : ¬ (db.query = "" ∧ tagsOf db.selectedFilters = []) :=
    fun h => hsel h.2
  simp only [search]
  rw [if_neg hcond]
  simp [hempty, updateResults]

/-- Witness for C3: a selected facet value carried by no record yields the
explicit empty list although the unfiltered fetch would be non-empty. -/
theorem search_no_match_stays_empty_witness :
    (tagsOf dbNoMatch.selectedFilters ≠ [] ∧
      (resultSet dbNoMatch).map Item.doc = []) ∧
    (search dbNoMatch).results = [] ∧
    (fillResults dbNoMatch).results ≠ [] :=
  ⟨⟨by decide, by decide⟩,
    search_no_match_stays_empty dbNoMatch (by decide) (by decide),
    by decide⟩

/-! ## C4: the tag constraint has flat OR semantics over all selected
values, independent of the facet key they came from -/

theorem tagOk_congr {t1 t2 : List String}
    (h1 : ∀ v ∈ t1, v ∈ t2) (h2 : ∀ v ∈ t2, v ∈ t1) (d : Doc) :
    tagOk t1 d = tagOk t2 d := by
  unfold tagOk
  have hemp : t1.isEmpty = t2.isEmpty := by
    cases t1 with
    | nil =>
      cases t2 with
      | nil => rfl
      | cons y ys => exact absurd (h2 y (by simp)) (by simp)
    | cons x xs =>
      cases t2 with
      | nil => exact absurd (h1 x (by simp)) (by simp)
      | cons y ys => rfl
  rw [hemp]
  congr 1
  rw [Bool.eq_iff_iff, List.any_eq_true, List.any_eq_true]
  exact ⟨fun ⟨x, hx, hp⟩ => ⟨x, h1 x hx, hp⟩,
    fun ⟨x, hx, hp⟩ => ⟨x, h2 x hx, hp⟩⟩

theorem groupedResults_tags_congr (store : List Doc) (term : String)
    {t1 t2 : List String} (h1 : ∀ v ∈ t1, v ∈ t2) (h2 : ∀ v ∈ t2, v ∈ t1) :
    groupedResults store term t1 = groupedResults store term t2 := by
  unfold groupedResults
  refine List.map_congr_left (fun field _ => ?_)
  unfold fieldHits
  congr 1
  refine List.filter_congr (fun d _ => ?_)
  rw [tagOk_congr h1 h2 d]

/-- C4: the per-key selection map enters the index query only as the
flattened concatenation of its value lists, and the query result depends
only on which values are selected, not on the keys they came from:
replacing the selection by any selection with the same flat value set
leaves the search result unchanged. -/
theorem search_flat_or_tags (db : DB) (sel2 : List (String × List String))
    (h1 : ∀ v ∈ tagsOf db.selectedFilters, v ∈ tagsOf sel2)
    (h2 : ∀ v ∈ tagsOf sel2, v ∈ tagsOf db.selectedFilters) :
    tagsOf db.selectedFilters =
      (db.selectedFilters.map Prod.snd).flatten ∧
    (search { db with selectedFilters := sel2 }).results =
      (search db).results := by
  refine ⟨rfl, ?_⟩
  have hnil : tagsOf db.selectedFilters = [] ↔ tagsOf sel2 = [] := by
    constructor
    · intro h
      refine List.eq_nil_iff_forall_not_mem.mpr (fun v hv => ?_)
      have := h2 v hv
      rw [h] at this
      exact List.not_mem_nil v this
    · intro h
      refine List.eq_nil_iff_forall_not_mem.mpr (fun v hv => ?_)
      have := h1 v hv
      rw [h] at this
      exact List.not_mem_nil v this
  have hhits : searchHits { db with selectedFilters := sel2 } =
      searchHits db := by
    unfold searchHits
    show (groupedResults db.store db.query (tagsOf sel2)).flatten =
      (groupedResults db.store db.query (tagsOf db.selectedFilters)).flatten
    rw [groupedResults_tags_congr db.store db.query h2 h1]
  by_cases hc : db.query = "" ∧ tagsOf db.selectedFilters = []
  · have hc2 : db.query = "" ∧ tagsOf sel2 = [] := ⟨hc.1, hnil.mp hc.2⟩
    simp [search, hc, hc2, fillResults, updateResults]
  · have hc2 : ¬ (db.query = "" ∧ tagsOf sel2 = []) := by
      intro h
      exact hc ⟨h.1, hnil.mpr h.2⟩
    simp only [search]
    rw [if_neg hc2, if_neg hc]
    have hres : resultSet { db with selectedFilters := sel2 } =
        resultSet db := by
      unfold resultSet
      rw [hhits]
    rw [hres]
    split <;> rfl

/-! ## C2: deduplication keeps the first occurrence (in position), and the
kept copy equals the first occurrence because enriched items with the same
id are identical -/

/-- Reference deduplication by id that keeps the first occurrence of every
id, at the position of that first occurrence: an item whose id was already
seen is dropped, a new id keeps the item where it stands. -/
def dedupFirstAux (seen : List String) : List Item → List Item
  | [] => []
  | x :: xs =>
    if seen.contains x.id then dedupFirstAux seen xs
    else x :: dedupFirstAux (seen ++ [x.id]) xs

/-- First-occurrence deduplication of an item list by id. -/
def dedupFirst (items : List Item) : List Item := dedupFirstAux [] items

/-- Reference deduplication on key-value pairs, keeping the first pair of
every key at its position. -/
def dedupPairsAux (seen : List String) :
    List (String × Item) → List (String × Item)
  | [] => []
  | p :: t =>
    if seen.contains p.1 then dedupPairsAux seen t
    else p :: dedupPairsAux (seen ++ [p.1]) t

/-- Key list of an insertion-ordered map. -/
def mapKeys (m : List (String × Item)) : List String := m.map Prod.fst

theorem dedupFirstAux_cons (seen : List String) (x : Item) (xs : List Item) :
    dedupFirstAux seen (x :: xs) =
      if seen.contains x.id then dedupFirstAux seen xs
      else x :: dedupFirstAux (seen ++ [x.id]) xs := rfl

theorem dedupPairsAux_cons (seen : List String) (p : String × Item)
    (t : List (String × Item)) :
    dedupPairsAux seen (p :: t) =
      if seen.contains p.1 then dedupPairsAux seen t
      else p :: dedupPairsAux (seen ++ [p.1]) t := rfl

theorem mapInsert_of_not_mem {m : List (String × Item)}
    {p : String × Item} (h : p.1 ∉ mapKeys m) : mapInsert m p = m ++ [p] := by
  induction m with
  | nil => rfl
  | cons q t ih =>
    have hmem : q.1 ∈ mapKeys (q :: t) := by simp [mapKeys]
    have hne : ¬ (q.1 = p.1) := fun hq => h (hq ▸ hmem)
    have htail : p.1 ∉ mapKeys t := by
      intro hp
      apply h
      simp only [mapKeys, List.map_cons, List.mem_cons]
      exact Or.inr hp
    simp only [mapInsert, if_neg hne, List.cons_append, List.cons.injEq,
      true_and]
    exact ih htail

theorem mapInsert_of_mem {m : List (String × Item)} {p : String × Item}
    (h : p.1 ∈ mapKeys m) (hcons : ∀ q ∈ m, q.1 = p.1 → q.2 = p.2) :
    mapInsert m p = m := by
  induction m with
  | nil => simp [mapKeys] at h
  | cons q t ih =>
    by_cases hq : q.1 = p.1
    · have : q.2 = p.2 := hcons q (by simp) hq
      simp only [mapInsert, if_pos hq, this.symm]
    · have hmem : p.1 ∈ mapKeys t := by
        simp only [mapKeys, List.map_cons, List.mem_cons] at h
        rcases h with hc | hc
        · exact absurd hc.symm hq
        · exact hc
      simp only [mapInsert, if_neg hq, List.cons.injEq, true_and]
      exact ih hmem (fun r hr hrp => hcons r (List.mem_cons_of_mem q hr) hrp)

theorem foldl_mapInsert_eq (l : List (String × Item)) :
    ∀ (m : List (String × Item)),
    (∀ a ∈ m ++ l, ∀ b ∈ m ++ l, a.1 = b.1 → a.2 = b.2) →
    l.foldl mapInsert m = m ++ dedupPairsAux (mapKeys m) l := by
  induction l with
  | nil =>
    intro m _
    simp [dedupPairsAux]
  | cons p t ih =>
    intro m hcons
    rw [List.foldl_cons]
    by_cases hp : p.1 ∈ mapKeys m
    · have hc : (mapKeys m).contains p.1 = true := by
        simpa [List.contains] using hp
      have heq : mapInsert m p = m := by
        refine mapInsert_of_mem hp (fun q hq hqp => ?_)
        exact hcons q (List.mem_append_left _ hq)
          p (List.mem_append_right _ (List.mem_cons_self _ _)) hqp
      rw [heq, dedupPairsAux_cons, if_pos hc]
      refine ih m (fun a ha b hb hab => ?_)
      have hsub : ∀ x, x ∈ m ++ t → x ∈ m ++ p :: t := by
        intro x hx
        rcases List.mem_append.mp hx with hx | hx
        · exact List.mem_append_left _ hx
        · exact List.mem_append_right _ (List.mem_cons_of_mem p hx)
      exact hcons a (hsub a ha) b (hsub b hb) hab
    · have hc : (mapKeys m).contains p.1 = false := by
        simpa [List.contains] using hp
      rw [mapInsert_of_not_mem hp]
      have hmem2 : ∀ x, x ∈ (m ++ [p]) ++ t → x ∈ m ++ p :: t := by
        intro x hx
        rcases List.mem_append.mp hx with hx | hx
        · rcases List.mem_append.mp hx with hx | hx
          · exact List.mem_append_left _ hx
          · rw [List.mem_singleton] at hx
            exact List.mem_append_right _ (hx ▸ List.mem_cons_self p t)
        · exact List.mem_append_right _ (List.mem_cons_of_mem p hx)
      rw [ih (m ++ [p]) (fun a ha b hb hab =>
        hcons a (hmem2 a ha) b (hmem2 b hb) hab)]
      have hkeys : mapKeys (m ++ [p]) = mapKeys m ++ [p.1] := by
        simp [mapKeys]
      rw [hkeys]
      have hcne : ¬ ((mapKeys m).contains p.1 = true) := by
        rw [hc]
        exact Bool.false_ne_true
      rw [dedupPairsAux_cons, if_neg hcne, List.append_assoc]
      rfl

theorem buildMap_eq_dedupPairs (l : List (String × Item))
    (hcons : ∀ a ∈ l, ∀ b ∈ l, a.1 = b.1 → a.2 = b.2) :
    buildMap l = dedupPairsAux [] l := by
  have h := foldl_mapInsert_eq l [] (by simpa using hcons)
  simpa [buildMap, mapKeys] using h

theorem map_snd_dedupPairsAux (items : List Item) :
    ∀ seen, (dedupPairsAux seen (items.map (fun it => (it.id, it)))).map
      Prod.snd = dedupFirstAux seen items := by
  induction items with
  | nil => intro seen; rfl
  | cons x xs ih =>
    intro seen
    rw [List.map_cons, dedupPairsAux_cons, dedupFirstAux_cons]
    by_cases hc : seen.contains x.id = true
    · rw [if_pos hc, if_pos hc]
      exact ih seen
    · rw [if_neg hc, if_neg hc, List.map_cons]
      exact congrArg (x :: ·) (ih (seen ++ [x.id]))

theorem mem_dedupFirstAux {y : Item} :
    ∀ (items : List Item) (seen : List String),
    y ∈ dedupFirstAux seen items → y ∈ items := by
  intro items
  induction items with
  | nil => intro seen h; cases h
  | cons x xs ih =>
    intro seen h
    rw [dedupFirstAux_cons] at h
    by_cases hc : seen.contains x.id = true
    · rw [if_pos hc] at h
      exact List.mem_cons_of_mem x (ih seen h)
    · rw [if_neg hc] at h
      rcases List.mem_cons.mp h with rfl | h
      · exact List.mem_cons_self _ _
      · exact List.mem_cons_of_mem x (ih _ h)

theorem count_dedupFirstAux (i : String) :
    ∀ (items : List Item) (seen : List String),
    ((dedupFirstAux seen items).map Item.id).count i =
      if i ∈ seen then 0 else if i ∈ items.map Item.id then 1 else 0 := by
  intro items
  induction items with
  | nil =>
    intro seen
    by_cases h : i ∈ seen <;> simp [dedupFirstAux, h]
  | cons x xs ih =>
    intro seen
    rw [dedupFirstAux_cons]
    by_cases hc : x.id ∈ seen
    · have hcb : seen.contains x.id = true := by
        simpa [List.contains] using hc
      rw [if_pos hcb, ih seen]
      by_cases his : i ∈ seen
      · simp [his]
      · have hne : ¬ (i = x.id) := fun h => his (h ▸ hc)
        simp [his, hne]
    · have hcb : ¬ (seen.contains x.id = true) := by
        simpa [List.contains] using hc
      rw [if_neg hcb, List.map_cons, List.count_cons, ih (seen ++ [x.id])]
      by_cases hix : i = x.id
      · subst hix
        simp [hc]
      · by_cases his : i ∈ seen
        · simp [his, hix, Ne.symm hix]
        · simp [his, hix, Ne.symm hix]

theorem count_dedupFirst {items : List Item} {it : Item}
    (h : it ∈ items) :
    ((dedupFirst items).map Item.id).count it.id = 1 := by
  rw [dedupFirst, count_dedupFirstAux]
  have : it.id ∈ items.map Item.id := List.mem_map_of_mem Item.id h
  simp [this]

theorem mem_searchHits {db : DB} {it : Item} (h : it ∈ searchHits db) :
    ∃ d ∈ db.store, it = Item.mk d.id d := by
  unfold searchHits groupedResults fieldHits at h
  obtain ⟨group, hg, hit⟩ := List.mem_flatten.mp h
  obtain ⟨field, -, hfield⟩ := List.mem_map.mp hg
  rw [← hfield] at hit
  obtain ⟨d, hd, hd2⟩ := List.mem_map.mp hit
  exact ⟨d, (List.mem_filter.mp hd).1, hd2.symm⟩

/-- C2: with unique store ids, the merged result list of `search` is
exactly the first-occurrence deduplication of the flattened per-field hit
groups — every id present in the hit groups survives exactly once, at the
position of its first occurrence, and the kept copy is that first
occurrence — and on the query path the stored results are the resolved
records of that deduplicated list. -/
theorem search_dedup_first_occurrence (db : DB)
    (hnd : (db.store.map Doc.id).Nodup) :
    resultSet db = dedupFirst (searchHits db) ∧
    (∀ it ∈ searchHits db,
      ((resultSet db).map Item.id).count it.id = 1) ∧
    (¬ (db.query = "" ∧ tagsOf db.selectedFilters = []) →
      (search db).results = (dedupFirst (searchHits db)).map Item.doc) := by
  have hitem : ∀ a ∈ searchHits db, ∀ b ∈ searchHits db,
      a.id = b.id → a = b := by
    intro a ha b hb hab
    obtain ⟨d1, hd1, rfl⟩ := mem_searchHits ha
    obtain ⟨d2, hd2, rfl⟩ := mem_searchHits hb
    have : d1 = d2 :=
      List.inj_on_of_nodup_map hnd hd1 hd2 (by simpa using hab)
    rw [this]
  have hmain : resultSet db = dedupFirst (searchHits db) := by
    unfold resultSet jsDedup
    rw [buildMap_eq_dedupPairs]
    · exact map_snd_dedupPairsAux (searchHits db) []
    · intro a ha b hb hab
      obtain ⟨x, hx, rfl⟩ := List.mem_map.mp ha
      obtain ⟨y, hy, rfl⟩ := List.mem_map.mp hb
      simpa using hitem x hx y hy (by simpa using hab)
  refine ⟨hmain, ?_, ?_⟩
  · intro it hit
    rw [hmain]
    exact count_dedupFirst hit
  · intro hc
    have hres : (resultSet db).map Item.doc =
        (dedupFirst (searchHits db)).map Item.doc := by rw [hmain]
    simp only [search]
    rw [if_neg hc]
    split
    · rename_i hemp
      rw [← hres, hemp]
      rfl
    · rw [← hres]
      rfl

/-- Witness for C2: the term hits the same record in the id, title and
about field groups; the merged list keeps it exactly once and the result is
the single record. -/
theorem search_dedup_first_occurrence_witness :
    ((dbTriple.store.map Doc.id).Nodup ∧
      Item.mk "foo" docTriple ∈ searchHits dbTriple ∧
      (searchHits dbTriple).length = 3) ∧
    resultSet dbTriple = dedupFirst (searchHits dbTriple) ∧
    ((resultSet dbTriple).map Item.id).count "foo" = 1 ∧
    (search dbTriple).results = [docTriple] :=
  ⟨⟨by decide, by decide, by decide⟩,
    (search_dedup_first_occurrence dbTriple (by decide)).1,
    (search_dedup_first_occurrence dbTriple (by decide)).2.1
      (Item.mk "foo" docTriple) (by decide),
    by decide⟩

/-! ## C10: shape invariant of the selected-filters map -/

/-- The invariant of the selected-filters map: its keys are exactly the
configured filter keys, in order, and no value list holds duplicates. -/
def FiltersInv (sel : List (String × List String)) : Prop :=
  sel.map Prod.fst = filterKeys ∧ ∀ p ∈ sel, p.2.Nodup

instance : DecidablePred FiltersInv := fun s =>
  inferInstanceAs
    (Decidable (s.map Prod.fst = filterKeys ∧ ∀ p ∈ s, p.2.Nodup))

theorem lookup_of_mem_keys_nodup {sel : List (String × List String)}
    (hnd : (sel.map Prod.fst).Nodup) {p : String × List String}
    (hp : p ∈ sel) : sel.lookup p.1 = some p.2 := by
  induction sel with
  | nil => cases hp
  | cons q t ih =>
    obtain ⟨qk, ql⟩ := q
    simp only [List.map_cons, List.nodup_cons] at hnd
    rcases List.mem_cons.mp hp with h | hp
    · subst h
      simp [List.lookup_cons]
    · have hne : ¬ (p.1 = qk) := by
        intro h
        have hmem : p.1 ∈ t.map Prod.fst := List.mem_map_of_mem Prod.fst hp
        rw [h] at hmem
        exact hnd.1 hmem
      rw [List.lookup_cons]
      simp only [beq_eq_false_iff_ne.mpr hne]
      exact ih hnd.2 hp

theorem lookup_map_update (sel : List (String × List String)) (k : String)
    (f : List String → List String) :
    (sel.map (fun p => if p.1 = k then (p.1, f p.2) else p)).lookup k =
      (sel.lookup k).map f := by
  induction sel with
  | nil => rfl
  | cons q t ih =>
    obtain ⟨qk, ql⟩ := q
    simp only [List.map_cons]
    by_cases h : qk = k
    · rw [if_pos h, List.lookup_cons, List.lookup_cons]
      have hbeq : (k == qk) = true := beq_iff_eq.mpr h.symm
      simp [hbeq]
    · rw [if_neg h, List.lookup_cons, List.lookup_cons]
      have hbeq : (k == qk) = false :=
        beq_eq_false_iff_ne.mpr (fun hh => h hh.symm)
      simp only [hbeq]
      exact ih

theorem map_fst_selectFilterValue (sel : List (String × List String))
    (k v : String) :
    (selectFilterValue k v sel).map Prod.fst = sel.map Prod.fst := by
  have hmap : ∀ (f : List String → List String),
      (sel.map (fun p => if p.1 = k then (p.1, f p.2) else p)).map Prod.fst =
        sel.map Prod.fst := by
    intro f
    rw [List.map_map]
    refine List.map_congr_left (fun p _ => ?_)
    by_cases h : p.1 = k <;> simp [h]
  simp only [selectFilterValue]
  split
  · exact hmap (fun l => l.filter (fun e => e != v))
  · exact hmap (fun l => l ++ [v])

theorem search_selectedFilters (db : DB) :
    (search db).selectedFilters = db.selectedFilters := by
  simp only [search, fillResults, updateResults]
  split
  · rfl
  · split <;> rfl

theorem selectFilterValue_inv {sel : List (String × List String)}
    (h : FiltersInv sel) (k v : String) :
    FiltersInv (selectFilterValue k v sel) := by
  refine ⟨by rw [map_fst_selectFilterValue, h.1], ?_⟩
  have hnd : (sel.map Prod.fst).Nodup := by
    rw [h.1]
    decide
  intro p hp
  simp only [selectFilterValue] at hp
  by_cases hc : (((sel.lookup k).getD []).contains v) = true
  · rw [if_pos hc] at hp
    obtain ⟨q, hq, rfl⟩ := List.mem_map.mp hp
    by_cases hqk : q.1 = k
    · rw [if_pos hqk]
      exact (h.2 q hq).filter _
    · rw [if_neg hqk]
      exact h.2 q hq
  · rw [if_neg hc] at hp
    obtain ⟨q, hq, rfl⟩ := List.mem_map.mp hp
    by_cases hqk : q.1 = k
    · rw [if_pos hqk]
      dsimp only
      have hq2 : sel.lookup k = some q.2 := by
        rw [← hqk]
        exact lookup_of_mem_keys_nodup hnd hq
      have hvq : v ∉ q.2 := by
        intro hv
        apply hc
        rw [hq2]
        simpa [List.contains] using hv
      have : (q.2 ++ [v]).Nodup := by
        rw [List.nodup_append]
        refine ⟨h.2 q hq, List.nodup_singleton v, ?_⟩
        intro x hx hx2
        rw [List.mem_singleton] at hx2
        subst hx2
        exact hvq hx
      exact this
    · rw [if_neg hqk]
      exact h.2 q hq

/-- C10: the selected-filters map always has exactly the configured filter
keys and duplicate-free value lists: the invariant holds initially, after
every `resetFilters`, and after every `handleFilterSelect` on a configured
key; moreover `handleFilterSelect(key, val)` removes every occurrence of a
present value and appends an absent value exactly once. -/
theorem selectedFilters_invariant (db : DB) (k v : String)
    (h : FiltersInv db.selectedFilters) (hk : k ∈ filterKeys) :
    FiltersInv initFilters ∧
    (∀ db2 : DB, FiltersInv (resetFilters db2).selectedFilters) ∧
    FiltersInv (handleFilterSelect k v db).selectedFilters ∧
    (v ∈ (db.selectedFilters.lookup k).getD [] →
      (handleFilterSelect k v db).selectedFilters.lookup k =
        some (((db.selectedFilters.lookup k).getD []).filter
          (fun e => e != v))) ∧
    (v ∉ (db.selectedFilters.lookup k).getD [] →
      (handleFilterSelect k v db).selectedFilters.lookup k =
        some ((db.selectedFilters.lookup k).getD [] ++ [v]) ∧
      ((db.selectedFilters.lookup k).getD [] ++ [v]).count v = 1) := by
  have hself : (handleFilterSelect k v db).selectedFilters =
      selectFilterValue k v db.selectedFilters := by
    unfold handleFilterSelect
    rw [search_selectedFilters]
  have hksome : ∃ l, db.selectedFilters.lookup k = some l := by
    have : k ∈ db.selectedFilters.map Prod.fst := by rw [h.1]; exact hk
    obtain ⟨p, hp, hpk⟩ := List.mem_map.mp this
    refine ⟨p.2, ?_⟩
    rw [← hpk]
    exact lookup_of_mem_keys_nodup (by rw [h.1]; decide) hp
  obtain ⟨cur, hcur⟩ := hksome
  refine ⟨by decide, ?_, ?_, ?_, ?_⟩
  · intro db2
    show FiltersInv initFilters
    decide
  · rw [hself]
    exact selectFilterValue_inv h k v
  · intro hv
    rw [hself]
    simp only [selectFilterValue]
    have hc : (((db.selectedFilters.lookup k).getD []).contains v) = true := by
      rw [hcur] at hv ⊢
      simpa [List.contains] using hv
    rw [if_pos hc,
      lookup_map_update db.selectedFilters k
        (fun l => l.filter (fun e => e != v)), hcur]
    rfl
  · intro hv
    rw [hself]
    simp only [selectFilterValue]
    have hc : ¬ ((((db.selectedFilters.lookup k).getD []).contains v) = true) := by
      rw [hcur] at hv ⊢
      simpa [List.contains] using hv
    constructor
    · rw [if_neg hc,
        lookup_map_update db.selectedFilters k (fun l => l ++ [v]), hcur]
      rfl
    · rw [hcur] at hv ⊢
      simp only [List.count_append]
      rw [List.count_eq_zero.mpr hv]
      simp

/-- Witness for C10 at the initial state: selecting X under `about` keeps
the invariant and records X exactly once. -/
theorem selectedFilters_invariant_witness :
    (FiltersInv db0.selectedFilters ∧ "about" ∈ filterKeys) ∧
    FiltersInv (handleFilterSelect "about" "X" db0).selectedFilters ∧
    ("X" ∉ (db0.selectedFilters.lookup "about").getD [] ∧
      (handleFilterSelect "about" "X" db0).selectedFilters.lookup "about" =
        some ((db0.selectedFilters.lookup "about").getD [] ++ ["X"])) :=
  ⟨⟨by decide, by decide⟩,
    (selectedFilters_invariant db0 "about" "X" (by decide)
      (by decide)).2.2.1,
    ⟨by decide,
      ((selectedFilters_invariant db0 "about" "X" (by decide)
        (by decide)).2.2.2.2 (by decide)).1⟩⟩

/-! ## C6: the sort comparator and sort stability -/

theorem mergeFuel_eq {α : Type} (le : α → α → Bool) :
    ∀ (fuel : Nat) (xs ys : List α), xs.length + ys.length ≤ fuel →
    mergeFuel le fuel xs ys = List.merge xs ys le := by
  intro fuel
  induction fuel with
  | zero =>
    intro xs ys h
    cases xs with
    | nil =>
      cases ys with
      | nil => rw [List.nil_merge]; rfl
      | cons y ys => simp at h
    | cons x xs => simp at h
  | succ fuel ih =>
    intro xs ys h
    cases xs with
    | nil => rw [List.nil_merge]; rfl
    | cons x xs =>
      cases ys with
      | nil => rw [List.merge_right]; rfl
      | cons y ys =>
        rw [List.cons_merge_cons]
        show (if le x y then x :: mergeFuel le fuel xs (y :: ys)
          else y :: mergeFuel le fuel (x :: xs) ys) = _
        by_cases hle : le x y
        · rw [if_pos hle, if_pos hle,
            ih xs (y :: ys) (by simp at h ⊢; omega)]
        · rw [if_neg hle, if_neg hle,
            ih (x :: xs) ys (by simp at h ⊢; omega)]

theorem msortFuel_eq {α : Type} (le : α → α → Bool) :
    ∀ (fuel : Nat) (l : List α), l.length ≤ fuel →
    msortFuel le fuel l = l.mergeSort le := by
  intro fuel
  induction fuel with
  | zero =>
    intro l h
    cases l with
    | nil => rw [List.mergeSort_nil]; rfl
    | cons a l => simp at h
  | succ fuel ih =>
    intro l h
    match l with
    | [] => rw [List.mergeSort_nil]; rfl
    | [a] => rw [List.mergeSort_singleton]; rfl
    | a :: b :: xs =>
      show mergeFuel le ((a :: b :: xs).length)
        (msortFuel le fuel ((a :: b :: xs).take
          (((a :: b :: xs).length + 1) / 2)))
        (msortFuel le fuel ((a :: b :: xs).drop
          (((a :: b :: xs).length + 1) / 2))) = _
      have hlen : (a :: b :: xs).length = xs.length + 2 := by simp
      have htake : ((a :: b :: xs).take
          (((a :: b :: xs).length + 1) / 2)).length ≤ fuel := by
        simp only [List.length_take, hlen] at *
        omega
      have hdrop : ((a :: b :: xs).drop
          (((a :: b :: xs).length + 1) / 2)).length ≤ fuel := by
        simp only [List.length_drop, hlen] at *
        omega
      rw [ih _ htake, ih _ hdrop]
      have hsum : ((List.take (((a :: b :: xs).length + 1) / 2)
            (a :: b :: xs)).mergeSort le).length +
          ((List.drop (((a :: b :: xs).length + 1) / 2)
            (a :: b :: xs)).mergeSort le).length ≤
          (a :: b :: xs).length := by
        simp only [List.length_mergeSort, List.length_take,
          List.length_drop, hlen]
        omega
      rw [mergeFuel_eq le _ _ _ hsum]
      conv_rhs => rw [List.mergeSort]
      simp

theorem jsSort_eq (le : Doc → Doc → Bool) (l : List Doc) :
    jsSort le l = l.mergeSort le :=
  msortFuel_eq le l.length l (Nat.le_refl _)

theorem isNum_iff {v : JsVal} : isNum v = true ↔ ∃ x, v = JsVal.num x := by
  cases v <;> simp [isNum]

theorem jsCompare_null {key ord : String} {a b : Doc}
    (h : getVal a key = JsVal.null ∨ getVal b key = JsVal.null) :
    jsCompare key ord a b = Ordering.eq := by
  simp only [jsCompare]
  rw [if_pos h]

theorem jsCompare_num {key ord : String} {a b : Doc} {x y : Int}
    (ha : getVal a key = JsVal.num x) (hb : getVal b key = JsVal.num y) :
    jsCompare key ord a b =
      if ord = "desc" then cmpNum y x else cmpNum x y := by
  simp only [jsCompare, ha, hb]
  rw [if_neg (by simp)]

theorem jsCompare_str {key ord : String} {a b : Doc}
    (hna : getVal a key ≠ JsVal.null) (hnb : getVal b key ≠ JsVal.null)
    (hnn : isNum (getVal a key) = false ∨ isNum (getVal b key) = false) :
    jsCompare key ord a b =
      if ord = "desc" then
        cmpStr (jsToString (getVal b key)) (jsToString (getVal a key))
      else cmpStr (jsToString (getVal a key)) (jsToString (getVal b key)) := by
  simp only [jsCompare]
  rw [if_neg (by push_neg; exact ⟨hna, hnb⟩)]
  rcases hva : getVal a key with _ | x | s | ar <;>
    rcases hvb : getVal b key with _ | y | t | br <;>
      first
        | exact absurd hva hna
        | exact absurd hvb hnb
        | (rw [hva, hvb] at hnn; simp [isNum] at hnn)
        | rfl

theorem cmpNum_swap (x y : Int) : cmpNum y x = (cmpNum x y).swap := by
  unfold cmpNum
  by_cases h1 : x < y
  · have h2 : ¬ y < x := by omega
    simp [h1, h2, Ordering.swap]
  · by_cases h2 : y < x
    · simp [h1, h2, Ordering.swap]
    · simp [h1, h2, Ordering.swap]

theorem cmpStr_swap (x y : String) : cmpStr y x = (cmpStr x y).swap := by
  unfold cmpStr
  by_cases h1 : x < y
  · have h2 : ¬ y < x := lt_asymm h1
    simp [h1, h2, Ordering.swap]
  · by_cases h2 : y < x
    · simp [h1, h2, Ordering.swap]
    · simp [h1, h2, Ordering.swap]

theorem cmpNum_ne_gt {u v : Int} : cmpNum u v ≠ Ordering.gt ↔ u ≤ v := by
  unfold cmpNum
  by_cases h1 : u < v
  · simp only [if_pos h1]
    constructor
    · intro _
      omega
    · intro _ h
      cases h
  · by_cases h2 : v < u
    · simp only [if_neg h1, if_pos h2]
      constructor
      · intro h
        exact absurd rfl h
      · intro h
        omega
    · simp only [if_neg h1, if_neg h2]
      constructor
      · intro _
        omega
      · intro _ h
        cases h

theorem cmpStr_ne_gt {u v : String} : cmpStr u v ≠ Ordering.gt ↔ u ≤ v := by
  unfold cmpStr
  by_cases h1 : u < v
  · simp only [if_pos h1]
    constructor
    · intro _
      exact le_of_lt h1
    · intro _ h
      cases h
  · by_cases h2 : v < u
    · simp only [if_neg h1, if_pos h2]
      constructor
      · intro h
        exact absurd rfl h
      · intro h
        exact absurd h2 (not_lt.mpr h)
    · simp only [if_neg h1, if_neg h2]
      constructor
      · intro _
        exact le_of_not_lt h2
      · intro _ h
        cases h

theorem jsLe_true_iff {key ord : String} {a b : Doc} :
    jsLe key ord a b = true ↔ jsCompare key ord a b ≠ Ordering.gt := by
  cases h : jsCompare key ord a b <;> simp [jsLe, h]

open List

theorem single_sublist_attachWith {α : Type} {P : α → Prop} :
    ∀ {l : List α} (H : ∀ x ∈ l, P x) {b : α} (hb : P b),
    [b] <+ l → [(⟨b, hb⟩ : {x // P x})] <+ l.attachWith P H := by
  intro l
  induction l with
  | nil =>
    intro H b hb h
    cases h
  | cons x t ih =>
    intro H b hb h
    rw [List.attachWith_cons]
    cases h with
    | cons _ h1 => exact (ih _ hb h1).cons _
    | cons₂ _ h1 => exact (List.nil_sublist _).cons₂ _

theorem pair_sublist_attachWith {α : Type} {P : α → Prop} :
    ∀ {l : List α} (H : ∀ x ∈ l, P x) {a b : α} (ha : P a) (hb : P b),
    [a, b] <+ l →
    [(⟨a, ha⟩ : {x // P x}), ⟨b, hb⟩] <+ l.attachWith P H := by
  intro l
  induction l with
  | nil =>
    intro H a b ha hb h
    cases h
  | cons x t ih =>
    intro H a b ha hb h
    rw [List.attachWith_cons]
    cases h with
    | cons _ h1 => exact (ih _ ha hb h1).cons _
    | cons₂ _ h1 => exact (single_sublist_attachWith _ hb h1).cons₂ _

/-- Stability of merge sort for a comparator that is transitive and total
on a class of elements containing the whole list: a pair in relation that
occurs in order in the input still occurs in order in the output. -/
theorem pair_sublist_mergeSort_of {α : Type} {P : α → Prop}
    {r : α → α → Bool}
    (htrans : ∀ a b c, P a → P b → P c →
      r a b = true → r b c = true → r a c = true)
    (htotal : ∀ a b, P a → P b → (r a b || r b a) = true)
    {l : List α} (hl : ∀ d ∈ l, P d) {a b : α}
    (hab : r a b = true) (hs : [a, b] <+ l) :
    [a, b] <+ l.mergeSort r := by
  have ha : P a := hl a (hs.subset (by simp))
  have hb : P b := hl b (hs.subset (by simp))
  have hpair : [(⟨a, ha⟩ : {x // P x}), ⟨b, hb⟩] <+ l.attachWith P hl :=
    pair_sublist_attachWith hl ha hb hs
  have hcore :
      [(⟨a, ha⟩ : {x // P x}), ⟨b, hb⟩] <+
        (l.attachWith P hl).mergeSort (fun x y => r x.val y.val) :=
    List.pair_sublist_mergeSort
      (fun x y z => htrans x.val y.val z.val x.2 y.2 z.2)
      (fun x y => htotal x.val y.val x.2 y.2) hab hpair
  have hmap := hcore.map Subtype.val
  have hrw := @List.map_mergeSort {x // P x} α (fun x y => r x.val y.val)
    r Subtype.val (l.attachWith P hl) (fun x _ y _ => rfl)
  rw [hrw, List.attachWith_map_subtype_val] at hmap
  exact hmap

theorem jsLe_num_class {key ord : String} {a b : Doc} {x y : Int}
    (hx : getVal a key = JsVal.num x) (hy : getVal b key = JsVal.num y) :
    jsLe key ord a b =
      if ord = "desc" then decide (y ≤ x) else decide (x ≤ y) := by
  by_cases hord : ord = "desc"
  · rw [if_pos hord]
    rcases hle : decide (y ≤ x) with - | -
    · rw [Bool.eq_false_iff]
      intro hcon
      have := jsLe_true_iff.mp hcon
      rw [jsCompare_num hx hy, if_pos hord] at this
      have := cmpNum_ne_gt.mp this
      simp at hle
      omega
    · rw [jsLe_true_iff, jsCompare_num hx hy, if_pos hord, cmpNum_ne_gt]
      simpa using hle
  · rw [if_neg hord]
    rcases hle : decide (x ≤ y) with - | -
    · rw [Bool.eq_false_iff]
      intro hcon
      have := jsLe_true_iff.mp hcon
      rw [jsCompare_num hx hy, if_neg hord] at this
      have := cmpNum_ne_gt.mp this
      simp at hle
      omega
    · rw [jsLe_true_iff, jsCompare_num hx hy, if_neg hord, cmpNum_ne_gt]
      simpa using hle

theorem jsLe_str_class {key ord : String} {a b : Doc}
    (hna : getVal a key ≠ JsVal.null) (hnb : getVal b key ≠ JsVal.null)
    (hnn : isNum (getVal a key) = false ∨ isNum (getVal b key) = false) :
    jsLe key ord a b =
      if ord = "desc" then
        decide (jsToString (getVal b key) ≤ jsToString (getVal a key))
      else decide (jsToString (getVal a key) ≤ jsToString (getVal b key)) := by
  by_cases hord : ord = "desc"
  · rw [if_pos hord]
    rcases hle : decide (jsToString (getVal b key) ≤
        jsToString (getVal a key)) with - | -
    · rw [Bool.eq_false_iff]
      intro hcon
      have := jsLe_true_iff.mp hcon
      rw [jsCompare_str hna hnb hnn, if_pos hord] at this
      exact absurd (cmpStr_ne_gt.mp this) (of_decide_eq_false hle)
    · rw [jsLe_true_iff, jsCompare_str hna hnb hnn, if_pos hord,
        cmpStr_ne_gt]
      simpa using hle
  · rw [if_neg hord]
    rcases hle : decide (jsToString (getVal a key) ≤
        jsToString (getVal b key)) with - | -
    · rw [Bool.eq_false_iff]
      intro hcon
      have := jsLe_true_iff.mp hcon
      rw [jsCompare_str hna hnb hnn, if_neg hord] at this
      exact absurd (cmpStr_ne_gt.mp this) (of_decide_eq_false hle)
    · rw [jsLe_true_iff, jsCompare_str hna hnb hnn, if_neg hord,
        cmpStr_ne_gt]
      simpa using hle

theorem sortOp_stable_num (key ord : String) (db : DB) {a b : Doc}
    (hall : ∀ d ∈ db.results, isNum (getVal d key) = true)
    (heq : getVal a key = getVal b key)
    (hs : [a, b] <+ db.results) :
    [a, b] <+ (sortOp key ord db).results := by
  show [a, b] <+ jsSort (fun x y => jsLe key (jsToLower ord) x y) db.results
  rw [jsSort_eq]
  have ha := hall a (hs.subset (by simp))
  have hb := hall b (hs.subset (by simp))
  obtain ⟨x, hx⟩ := isNum_iff.mp ha
  obtain ⟨y, hy⟩ := isNum_iff.mp hb
  have hxy : x = y := by
    rw [hx, hy] at heq
    exact (JsVal.num.injEq x y).mp heq
  refine pair_sublist_mergeSort_of
    (P := fun d => isNum (getVal d key) = true)
    (r := fun x y => jsLe key (jsToLower ord) x y)
    ?_ ?_ hall ?_ hs
  · intro p q r hp hq hr hpq hqr
    dsimp only at hpq hqr ⊢
    obtain ⟨u, hu⟩ := isNum_iff.mp hp
    obtain ⟨v, hv⟩ := isNum_iff.mp hq
    obtain ⟨w, hw⟩ := isNum_iff.mp hr
    rw [jsLe_num_class hu hv] at hpq
    rw [jsLe_num_class hv hw] at hqr
    rw [jsLe_num_class hu hw]
    by_cases hord : jsToLower ord = "desc" <;>
      simp [hord] at hpq hqr ⊢ <;> omega
  · intro p q hp hq
    dsimp only
    obtain ⟨u, hu⟩ := isNum_iff.mp hp
    obtain ⟨v, hv⟩ := isNum_iff.mp hq
    rw [jsLe_num_class hu hv, jsLe_num_class hv hu]
    by_cases hord : jsToLower ord = "desc" <;> simp [hord] <;> omega
  · dsimp only
    rw [jsLe_num_class hx hy, hxy]
    by_cases hord : jsToLower ord = "desc" <;> simp [hord]

theorem sortOp_stable_str (key ord : String) (db : DB) {a b : Doc}
    (hall : ∀ d ∈ db.results, getVal d key ≠ JsVal.null ∧
      isNum (getVal d key) = false)
    (heq : getVal a key = getVal b key)
    (hs : [a, b] <+ db.results) :
    [a, b] <+ (sortOp key ord db).results := by
  show [a, b] <+ jsSort (fun x y => jsLe key (jsToLower ord) x y) db.results
  rw [jsSort_eq]
  have ha := hall a (hs.subset (by simp))
  have hb := hall b (hs.subset (by simp))
  refine pair_sublist_mergeSort_of
    (P := fun d => getVal d key ≠ JsVal.null ∧ isNum (getVal d key) = false)
    (r := fun x y => jsLe key (jsToLower ord) x y)
    ?_ ?_ hall ?_ hs
  · intro p q r hp hq hr hpq hqr
    dsimp only at hpq hqr ⊢
    rw [jsLe_str_class hp.1 hq.1 (Or.inl hp.2)] at hpq
    rw [jsLe_str_class hq.1 hr.1 (Or.inl hq.2)] at hqr
    rw [jsLe_str_class hp.1 hr.1 (Or.inl hp.2)]
    by_cases hord : jsToLower ord = "desc"
    · simp only [hord, if_pos] at hpq hqr ⊢
      simp at hpq hqr ⊢
      exact le_trans hqr hpq
    · simp only [hord, if_neg, if_false] at hpq hqr ⊢
      simp at hpq hqr ⊢
      exact le_trans hpq hqr
  · intro p q hp hq
    dsimp only
    rw [jsLe_str_class hp.1 hq.1 (Or.inl hp.2),
      jsLe_str_class hq.1 hp.1 (Or.inl hq.2)]
    by_cases hord : jsToLower ord = "desc" <;> simp [hord] <;>
      exact le_total _ _
  · dsimp only
    rw [jsLe_str_class ha.1 hb.1 (Or.inl ha.2), heq]
    by_cases hord : jsToLower ord = "desc" <;> simp [hord]

theorem jsCompare_desc_swap_aux (key : String) (a b : Doc) :
    jsCompare key "desc" a b = (jsCompare key "asc" a b).swap := by
  by_cases hn : getVal a key = JsVal.null ∨ getVal b key = JsVal.null
  · rw [jsCompare_null hn, jsCompare_null hn]
    rfl
  · push_neg at hn
    by_cases hnum : isNum (getVal a key) = true ∧ isNum (getVal b key) = true
    · obtain ⟨x, hx⟩ := isNum_iff.mp hnum.1
      obtain ⟨y, hy⟩ := isNum_iff.mp hnum.2
      rw [jsCompare_num hx hy, jsCompare_num hx hy,
        if_pos rfl, if_neg (by decide)]
      exact cmpNum_swap x y
    · have hnn : isNum (getVal a key) = false ∨
          isNum (getVal b key) = false := by
        cases hA : isNum (getVal a key) <;>
          cases hB : isNum (getVal b key) <;> simp_all
      rw [jsCompare_str hn.1 hn.2 hnn, jsCompare_str hn.1 hn.2 hnn,
        if_pos rfl, if_neg (by decide)]
      exact cmpStr_swap _ _

/-- C6 (amended): `sort` is total and returns a permutation of its input;
the comparator treats a null or missing value on either side as equal,
compares number pairs numerically and every other non-null pair by string
collation on the string coercions, and `desc` reverses the comparison;
pairs of records with equal values under the key keep their relative input
order whenever all records in the list hold numeric values under the key,
or all hold non-null non-numeric values (a consistent comparator); a pair
involving a null value is not guaranteed to keep its relative order. -/
theorem sort_comparator_and_stability :
    (∀ (key ord : String) (db : DB),
      ((sortOp key ord db).results).Perm db.results) ∧
    (∀ (key ord : String) (a b : Doc),
      getVal a key = JsVal.null ∨ getVal b key = JsVal.null →
      jsCompare key ord a b = Ordering.eq) ∧
    (∀ (key : String) (a b : Doc) (x y : Int),
      getVal a key = JsVal.num x → getVal b key = JsVal.num y →
      jsCompare key "asc" a b = cmpNum x y ∧
      jsCompare key "desc" a b = cmpNum y x) ∧
    (∀ (key : String) (a b : Doc), getVal a key ≠ JsVal.null →
      getVal b key ≠ JsVal.null →
      (isNum (getVal a key) = false ∨ isNum (getVal b key) = false) →
      jsCompare key "asc" a b =
        cmpStr (jsToString (getVal a key)) (jsToString (getVal b key)) ∧
      jsCompare key "desc" a b =
        cmpStr (jsToString (getVal b key)) (jsToString (getVal a key))) ∧
    (∀ (key : String) (a b : Doc),
      jsCompare key "desc" a b = (jsCompare key "asc" a b).swap) ∧
    (∀ (key ord : String) (db : DB) (a b : Doc),
      (∀ d ∈ db.results, isNum (getVal d key) = true) →
      getVal a key = getVal b key → [a, b] <+ db.results →
      [a, b] <+ (sortOp key ord db).results) ∧
    (∀ (key ord : String) (db : DB) (a b : Doc),
      (∀ d ∈ db.results, getVal d key ≠ JsVal.null ∧
        isNum (getVal d key) = false) →
      getVal a key = getVal b key → [a, b] <+ db.results →
      [a, b] <+ (sortOp key ord db).results) := by
  refine ⟨?_, ?_, ?_, ?_, jsCompare_desc_swap_aux, ?_, ?_⟩
  · intro key ord db
    show (jsSort _ db.results).Perm db.results
    rw [jsSort_eq]
    exact List.mergeSort_perm db.results _
  · intro key ord a b h
    exact jsCompare_null h
  · intro key a b x y hx hy
    exact ⟨by rw [jsCompare_num hx hy, if_neg (by decide)],
      by rw [jsCompare_num hx hy, if_pos rfl]⟩
  · intro key a b hna hnb hnn
    exact ⟨by rw [jsCompare_str hna hnb hnn, if_neg (by decide)],
      by rw [jsCompare_str hna hnb hnn, if_pos rfl]⟩
  · intro key ord db a b h1 h2 h3
    exact sortOp_stable_num key ord db h1 h2 h3
  · intro key ord db a b h1 h2 h3
    exact sortOp_stable_str key ord db h1 h2 h3

/-- Witness for C6 at a concrete all-numeric list: the two records of equal
value keep their relative order through the sort. -/
theorem sort_comparator_and_stability_witness :
    ((∀ d ∈ dbStab.results, isNum (getVal d "v") = true) ∧
      getVal docNum2 "v" = getVal docNum2x "v" ∧
      [docNum2, docNum2x] <+ dbStab.results) ∧
    [docNum2, docNum2x] <+ (sortOp "v" "asc" dbStab).results :=
  ⟨⟨by decide, by decide, by decide⟩,
    sort_comparator_and_stability.2.2.2.2.2.1 "v" "asc" dbStab docNum2
      docNum2x (by decide) (by decide) (by decide)⟩

/-- Counterexample for C6 as stated: in the list holding the number 2, a
record without the key, and the number 1, the sort moves the number 1 in
front of the null record although the two compare as equal and stood in
the other order in the input — a pair with a null value on one side does
not keep its relative input order. -/
theorem sort_null_pair_not_stable :
    ([docNull, docNum1] <+ dbSort.results ∧
      getVal docNull "v" = JsVal.null ∧
      jsCompare "v" "asc" docNull docNum1 = Ordering.eq) ∧
    (sortOp "v" "asc" dbSort).results = [docNum1, docNum2, docNull] ∧
    ¬ [docNull, docNum1] <+ (sortOp "v" "asc" dbSort).results :=
  ⟨⟨by decide, by decide, by decide⟩, by decide, by decide⟩

/-- Witness for C4: moving the selected values X and Y to other facet keys
leaves the search result unchanged (and it is the non-empty list holding
the record tagged X). -/
theorem search_flat_or_tags_witness :
    ((∀ v ∈ tagsOf dbSelAbout.selectedFilters, v ∈ tagsOf selSplit) ∧
      (∀ v ∈ tagsOf selSplit, v ∈ tagsOf dbSelAbout.selectedFilters)) ∧
    (search { dbSelAbout with selectedFilters := selSplit }).results =
      (search dbSelAbout).results ∧
    (search dbSelAbout).results = [doc2] :=
  ⟨⟨by decide, by decide⟩,
    (search_flat_or_tags dbSelAbout selSplit (by decide) (by decide)).2,
    by decide⟩

end Eduvocs
